import Mathlib

set_option maxRecDepth 100000

/-!
Shallow embedding of the LSB steganography codec from `src/main.py`
(`calc_max_message_length`, `encode_lsb`, `decode_lsb`, constant `PREFIX`).

Modelling conventions:
* A Python `str` is modelled as the list of its character code points
  (`List Nat`); `ord`/`chr` are then the identity.
* A PIL image is modelled as a `PixelGrid`: its dimensions plus the
  row-major list of pixels, each pixel the list of its channel values.
  The Python double loop `for y in range(height): for x in range(width)`
  visiting `getpixel((x, y))` is exactly a traversal of that row-major
  list when `pixels.length = width * height`; theorems carry that
  well-formedness hypothesis together with "every pixel has at least 3
  channels" (the code indexes `pixel[0..2]` unconditionally).
* `encode_lsb` raises `ValueError` on overflow; the embedding returns
  `Option PixelGrid` with `none` for the raised error.  The Python code
  mutates a fresh copy (`image.copy()`), never its input, so the
  embedding is a pure function producing a new grid.
-/

namespace StegCore

/-- The fixed marker prepended to every embedded message: the character
codes of the string constant `PREFIX = "vasu"` from the source. -/
def PREFIX_MARKER : List Nat := [118, 97, 115, 117]

/-- A decoded raster image: dimensions plus the row-major list of pixels,
each pixel the list of its channel intensity values. -/
structure PixelGrid where
  width : Nat
  height : Nat
  pixels : List (List Nat)
deriving DecidableEq, Repr

/-- Well-formedness of a grid as the codec assumes it: the pixel list
really has `width * height` entries (row-major) and every pixel carries
at least the three colour channels the code indexes. -/
def WFGrid (g : PixelGrid) : Prop :=
  g.pixels.length = g.width * g.height ∧ ∀ p ∈ g.pixels, 3 ≤ p.length

instance (g : PixelGrid) : Decidable (WFGrid g) := by
  unfold WFGrid; infer_instance

/-- `calc_max_message_length(image)`: `(width*height*3) // 8 - len(PREFIX) - 1`.
Integer-valued: the subtraction may go negative for tiny images, exactly as
in Python. -/
def calc_max_message_length (width height : Nat) : Int :=
  ((width * height * 3 / 8 : Nat) : Int) - (PREFIX_MARKER.length : Int) - 1

/-- Binary digits of `n`, least significant first; `[]` for `0`.
The first argument is recursion fuel (`n` itself suffices, since the
argument at least halves each step); it makes the recursion structural so
that the kernel can evaluate the definition. -/
def bitsLEAux : Nat → Nat → List Nat
  | _, 0 => []
  | 0, _ + 1 => []
  | fuel + 1, n + 1 => (n + 1) % 2 :: bitsLEAux fuel ((n + 1) / 2)

/-- Binary digits of `n`, most significant first (Python `format(n, 'b')`
without padding); empty for `0`. -/
def bitsBE (n : Nat) : List Nat := (bitsLEAux n n).reverse

/-- Python `format(ord(char), '08b')`: the binary digits of the code
point, zero-padded on the left to a MINIMUM width of 8.  Code points
above 255 produce more than 8 digits (format pads, it never truncates). -/
def charToBits (c : Nat) : List Nat :=
  List.replicate (8 - (bitsBE c).length) 0 ++ bitsBE c

/-- The frame built by the encoder: `PREFIX + message + chr(0)`. -/
def frameOf (message : List Nat) : List Nat := PREFIX_MARKER ++ message ++ [0]

/-- `''.join([format(ord(char), '08b') for char in s])` as a bit list. -/
def bitStream (s : List Nat) : List Nat := (s.map charToBits).flatten

/-- `pixel[n] & ~1 | bit` for `bit ∈ {0,1}`: clear the least significant
bit of the channel, then or the payload bit in. -/
def setLSB (c b : Nat) : Nat := 2 * (c / 2) + b

/-- The inner loop `for n in range(3): if idx < msg_len: pixel[n] = ...`:
overwrite the LSBs of the first `k` channels with the next bits while
bits remain; returns the updated channel list and the unconsumed bits. -/
def embedChannels : Nat → List Nat → List Nat → List Nat × List Nat
  | 0, chans, bits => (chans, bits)
  | _ + 1, [], bits => ([], bits)
  | _ + 1, c :: chans, [] => (c :: chans, [])
  | k + 1, c :: chans, b :: bits =>
    let r := embedChannels k chans bits
    (setLSB c b :: r.1, r.2)

/-- The row-major pixel traversal of `encode_lsb`.  The Python loop
breaks out early once `idx >= msg_len`, but from that point every
`putpixel` writes the unmodified pixel back, so processing the remaining
pixels with an empty bit list (the identity) gives the same grid; the
flattened recursion is therefore result-equivalent to the double loop
with its two `break`s.  Returns the new pixel list and the bits left
unconsumed when the grid ran out (`idx`/`msg_len` bookkeeping: the code
raises iff unconsumed bits remain). -/
def embedPixels : List (List Nat) → List Nat → List (List Nat) × List Nat
  | [], bits => ([], bits)
  | p :: ps, bits =>
    let r := embedChannels 3 p bits
    let rest := embedPixels ps r.2
    (r.1 :: rest.1, rest.2)

/-- `encode_lsb(image, message)`: build the frame, expand it to bits,
overwrite LSBs along the row-major traversal; raise (`none`) iff the
grid is exhausted before every bit is consumed, else return the new
grid (same dimensions, updated pixels). -/
def encode_lsb (g : PixelGrid) (message : List Nat) : Option PixelGrid :=
  let bits := bitStream (frameOf message)
  let r := embedPixels g.pixels bits
  if r.2 = [] then some ⟨g.width, g.height, r.1⟩ else none

/-- The bit-collection loop of `decode_lsb`: for every pixel in row-major
order, `for n in range(3): bits.append(pixel[n] & 1)`. -/
def extractBits (pixels : List (List Nat)) : List Nat :=
  (pixels.map (fun p => (p.take 3).map (fun c => c % 2))).flatten

/-- `int(''.join(map(str, byte)), 2)` for a list of 0/1 bits: the value
of the bits read most-significant first. -/
def byteVal (bits : List Nat) : Nat := bits.foldl (fun a b => 2 * a + b) 0

/-- The regrouping loop of `decode_lsb`: consume 8 bits at a time into
character codes, dropping a trailing group shorter than 8. -/
def bytesOfBits : List Nat → List Nat
  | b0 :: b1 :: b2 :: b3 :: b4 :: b5 :: b6 :: b7 :: rest =>
    byteVal [b0, b1, b2, b3, b4, b5, b6, b7] :: bytesOfBits rest
  | _ => []

/-- The accumulation loop of `decode_lsb`: keep characters until the
first `chr(0)`, which is dropped together with everything after it. -/
def takeUntilZero : List Nat → List Nat
  | [] => []
  | c :: cs => if c = 0 then [] else c :: takeUntilZero cs

/-- `decode_lsb(image)`: collect every pixel's first three channel LSBs
in row-major order, regroup into 8-bit characters, stop at the first
NUL.  Total: it never fails on any grid. -/
def decode_lsb (g : PixelGrid) : List Nat :=
  takeUntilZero (bytesOfBits (extractBits g.pixels))

/-- The decoder algorithm as the specification words it, for the
refinement claim: collect the LSBs, form the characters of the full
8-bit groups (`i`-th character = bits `8*i .. 8*i+7`, most significant
first, the trailing partial byte discarded), then keep the longest
prefix free of the sentinel character 0. -/
def decodeSpec (g : PixelGrid) : List Nat :=
  let bits := extractBits g.pixels
  let chars := (List.range (bits.length / 8)).map
    (fun i => byteVal ((bits.drop (8 * i)).take 8))
  chars.takeWhile (fun c => c != 0)

/-- A 10-by-10 all-black RGB grid (the spec's concrete scenario size). -/
def zeroGrid10 : PixelGrid := ⟨10, 10, List.replicate 100 [0, 0, 0]⟩

/-- An 8-by-3 all-black RGB grid: 72 embeddable bits, capacity 4. -/
def zeroGrid83 : PixelGrid := ⟨8, 3, List.replicate 24 [0, 0, 0]⟩

/-- A 4-by-4 all-black RGB grid: 48 embeddable bits, capacity 1. -/
def zeroGrid44 : PixelGrid := ⟨4, 4, List.replicate 16 [0, 0, 0]⟩

/-- A 4-by-4 RGBA grid (four channels per pixel). -/
def rgbaGrid : PixelGrid := ⟨4, 4, List.replicate 16 [10, 20, 30, 40]⟩

/-- The grid produced by encoding the empty message into `zeroGrid44`. -/
def encResult44 : PixelGrid :=
  ⟨4, 4, (embedPixels zeroGrid44.pixels (bitStream (frameOf []))).1⟩

/-- The grid produced by encoding the empty message into `rgbaGrid`. -/
def rgbaEnc : PixelGrid :=
  ⟨4, 4, (embedPixels rgbaGrid.pixels (bitStream (frameOf []))).1⟩

/-- A 2-by-2 RGBA grid. -/
def rgbaA : PixelGrid :=
  ⟨2, 2, [[1, 2, 3, 4], [5, 6, 7, 8], [9, 10, 11, 12], [13, 14, 15, 16]]⟩

/-- The same 2-by-2 RGBA grid as `rgbaA` except for the fourth (alpha)
channel of every pixel. -/
def rgbaB : PixelGrid :=
  ⟨2, 2, [[1, 2, 3, 99], [5, 6, 7, 98], [9, 10, 11, 97], [13, 14, 15, 96]]⟩

/-! ### Helper lemmas: bit expansion -/

theorem foldr_bitsLEAux : ∀ fuel n, n ≤ fuel →
    (bitsLEAux fuel n).foldr (fun b a => 2 * a + b) 0 = n
  | _, 0, _ => by simp [bitsLEAux]
  | 0, n + 1, h => by omega
  | fuel + 1, n + 1, h => by
    have ih := foldr_bitsLEAux fuel ((n + 1) / 2) (by omega)
    simp only [bitsLEAux, List.foldr_cons, ih]
    omega

theorem mem_bitsLEAux : ∀ fuel n b, b ∈ bitsLEAux fuel n → b ≤ 1
  | _, 0, b, h => by simp [bitsLEAux] at h
  | 0, n + 1, b, h => by simp [bitsLEAux] at h
  | fuel + 1, n + 1, b, h => by
    simp only [bitsLEAux, List.mem_cons] at h
    rcases h with h | h
    · omega
    · exact mem_bitsLEAux fuel _ b h

theorem length_bitsLEAux_le : ∀ fuel n k, n ≤ fuel → n < 2 ^ k →
    (bitsLEAux fuel n).length ≤ k
  | _, 0, _, _, _ => by simp [bitsLEAux]
  | 0, n + 1, _, h, _ => by omega
  | fuel + 1, n + 1, k, h, hk => by
    cases k with
    | zero => simp at hk
    | succ k =>
      have h2 : 2 ^ (k + 1) = 2 ^ k * 2 := pow_succ 2 k
      have ih := length_bitsLEAux_le fuel ((n + 1) / 2) k (by omega) (by omega)
      simp only [bitsLEAux, List.length_cons]
      omega

theorem byteVal_bitsBE (n : Nat) : byteVal (bitsBE n) = n := by
  unfold byteVal bitsBE
  rw [List.foldl_reverse]
  exact foldr_bitsLEAux n n le_rfl

theorem foldl_replicate_zero (k : Nat) :
    List.foldl (fun a b => 2 * a + b) 0 (List.replicate k 0) = 0 := by
  induction k with
  | zero => rfl
  | succ k ih => simpa [List.replicate_succ] using ih

theorem byteVal_charToBits (c : Nat) : byteVal (charToBits c) = c := by
  unfold charToBits
  unfold byteVal
  rw [List.foldl_append, foldl_replicate_zero]
  exact byteVal_bitsBE c

theorem length_charToBits_ge (c : Nat) : 8 ≤ (charToBits c).length := by
  simp only [charToBits, List.length_append, List.length_replicate]
  omega

theorem length_charToBits (c : Nat) (hc : c < 256) : (charToBits c).length = 8 := by
  have hle : (bitsBE c).length ≤ 8 := by
    unfold bitsBE
    rw [List.length_reverse]
    exact length_bitsLEAux_le c c 8 le_rfl (by omega)
  simp only [charToBits, List.length_append, List.length_replicate]
  omega

theorem mem_charToBits (c b : Nat) (h : b ∈ charToBits c) : b ≤ 1 := by
  simp only [charToBits, List.mem_append, List.mem_replicate, bitsBE,
    List.mem_reverse] at h
  rcases h with h | h
  · omega
  · exact mem_bitsLEAux c c b h

theorem bitStream_cons (c : Nat) (s : List Nat) :
    bitStream (c :: s) = charToBits c ++ bitStream s := by
  simp [bitStream]

theorem bitStream_length_eq (s : List Nat) (h : ∀ c ∈ s, c < 256) :
    (bitStream s).length = 8 * s.length := by
  induction s with
  | nil => rfl
  | cons c s ih =>
    rw [bitStream_cons, List.length_append, List.length_cons,
      length_charToBits c (h c (by simp)), ih (fun x hx => h x (by simp [hx]))]
    ring

theorem bitStream_length_ge (s : List Nat) :
    8 * s.length ≤ (bitStream s).length := by
  induction s with
  | nil => simp
  | cons c s ih =>
    rw [bitStream_cons, List.length_append, List.length_cons]
    have := length_charToBits_ge c
    omega

theorem mem_bitStream (s : List Nat) (b : Nat) (h : b ∈ bitStream s) : b ≤ 1 := by
  induction s with
  | nil => simp [bitStream] at h
  | cons c s ih =>
    rw [bitStream_cons, List.mem_append] at h
    rcases h with h | h
    · exact mem_charToBits c b h
    · exact ih h

theorem setLSB_mod (c b : Nat) (hb : b ≤ 1) : setLSB c b % 2 = b := by
  unfold setLSB; omega

theorem setLSB_div (c b : Nat) (hb : b ≤ 1) : setLSB c b / 2 = c / 2 := by
  unfold setLSB; omega

/-! ### Helper lemmas: the encoder traversal -/

theorem embedChannels_nilBits : ∀ k p, embedChannels k p [] = (p, [])
  | 0, _ => rfl
  | _ + 1, [] => rfl
  | _ + 1, _ :: _ => rfl

theorem embedChannels_snd : ∀ k (p bs : List Nat), k ≤ p.length →
    (embedChannels k p bs).2 = bs.drop k
  | 0, p, bs, _ => by simp [embedChannels]
  | _ + 1, [], bs, h => by simp at h
  | _ + 1, _ :: _, [], _ => by simp [embedChannels]
  | k + 1, c :: p, b :: bs, h => by
    simp only [embedChannels, List.drop_succ_cons]
    exact embedChannels_snd k p bs (by simpa using h)

theorem embedChannels_fst_length : ∀ k (p bs : List Nat),
    (embedChannels k p bs).1.length = p.length
  | 0, _, _ => rfl
  | _ + 1, [], _ => rfl
  | _ + 1, _ :: _, [] => rfl
  | k + 1, c :: p, b :: bs => by
    simp only [embedChannels, List.length_cons]
    rw [embedChannels_fst_length k p bs]

theorem embedChannels_getD : ∀ k (p bs : List Nat) n, n < p.length →
    (embedChannels k p bs).1.getD n 0 =
      if n < k ∧ n < bs.length then setLSB (p.getD n 0) (bs.getD n 0)
      else p.getD n 0
  | 0, p, bs, n, _ => by simp [embedChannels]
  | _ + 1, [], bs, n, h => by simp at h
  | _ + 1, _ :: _, [], n, _ => by simp [embedChannels]
  | k + 1, c :: p, b :: bs, 0, _ => by simp [embedChannels]
  | k + 1, c :: p, b :: bs, n + 1, h => by
    have ih := embedChannels_getD k p bs n (by simpa using h)
    simp only [embedChannels, List.getD_cons_succ, List.length_cons]
    rw [ih]
    by_cases h1 : n < k ∧ n < bs.length
    · rw [if_pos h1, if_pos (by omega)]
    · rw [if_neg h1, if_neg (by omega)]

theorem embedChannels_extract (p bs : List Nat) (hp : 3 ≤ p.length)
    (hb : ∀ b ∈ bs, b ≤ 1) :
    ((embedChannels 3 p bs).1.take 3).map (fun c => c % 2) =
      bs.take 3 ++ (((p.take 3).map (fun c => c % 2)).drop bs.length) := by
  obtain ⟨c0, c1, c2, rest, rfl⟩ : ∃ c0 c1 c2 rest, p = c0 :: c1 :: c2 :: rest := by
    rcases p with _ | ⟨c0, _ | ⟨c1, _ | ⟨c2, rest⟩⟩⟩
    · simp only [List.length_nil] at hp; omega
    · simp only [List.length_cons, List.length_nil] at hp; omega
    · simp only [List.length_cons, List.length_nil] at hp; omega
    · exact ⟨c0, c1, c2, rest, rfl⟩
  rcases bs with _ | ⟨b0, _ | ⟨b1, _ | ⟨b2, bs⟩⟩⟩
  · simp [embedChannels]
  · simp [embedChannels, setLSB_mod c0 b0 (hb b0 (by simp))]
  · simp [embedChannels, setLSB_mod c0 b0 (hb b0 (by simp)),
      setLSB_mod c1 b1 (hb b1 (by simp))]
  · have hd : (([c0 % 2, c1 % 2, c2 % 2] : List Nat)).drop
        (b0 :: b1 :: b2 :: bs).length = [] :=
      List.drop_eq_nil_of_le (by simp only [List.length_cons, List.length_nil]; omega)
    simp only [List.take_cons, List.map_cons] at hd ⊢
    simp [embedChannels, setLSB_mod c0 b0 (hb b0 (by simp)),
      setLSB_mod c1 b1 (hb b1 (by simp)),
      setLSB_mod c2 b2 (hb b2 (by simp)), hd]

theorem extractBits_cons (p : List Nat) (ps : List (List Nat)) :
    extractBits (p :: ps) = (p.take 3).map (fun c => c % 2) ++ extractBits ps := by
  simp [extractBits]

theorem length_extractBits (ps : List (List Nat)) (h : ∀ p ∈ ps, 3 ≤ p.length) :
    (extractBits ps).length = 3 * ps.length := by
  induction ps with
  | nil => rfl
  | cons p ps ih =>
    rw [extractBits_cons, List.length_append, List.length_map,
      ih (fun q hq => h q (by simp [hq]))]
    have : (p.take 3).length = 3 := by
      rw [List.length_take]
      have := h p (by simp)
      omega
    rw [this, List.length_cons]
    ring

theorem embedPixels_snd (ps : List (List Nat)) (bs : List Nat)
    (h : ∀ p ∈ ps, 3 ≤ p.length) :
    (embedPixels ps bs).2 = bs.drop (3 * ps.length) := by
  induction ps generalizing bs with
  | nil => simp [embedPixels]
  | cons p ps ih =>
    have h33 : 3 + 3 * ps.length = 3 * (p :: ps).length := by
      rw [List.length_cons]; ring
    simp only [embedPixels]
    rw [embedChannels_snd 3 p bs (h p (by simp)),
      ih _ (fun q hq => h q (by simp [hq])), List.drop_drop, h33]

theorem embedPixels_fst_length (ps : List (List Nat)) (bs : List Nat) :
    (embedPixels ps bs).1.length = ps.length := by
  induction ps generalizing bs with
  | nil => rfl
  | cons p ps ih =>
    simp only [embedPixels, List.length_cons]
    rw [ih]

theorem embedPixels_nilBits : ∀ ps, embedPixels ps [] = (ps, [])
  | [] => rfl
  | p :: ps => by
    simp [embedPixels, embedChannels_nilBits, embedPixels_nilBits ps]

theorem embedPixels_drop (k : Nat) : ∀ (ps : List (List Nat)) (bs : List Nat),
    (∀ p ∈ ps, 3 ≤ p.length) →
    (embedPixels ps bs).1.drop k = (embedPixels (ps.drop k) (bs.drop (3 * k))).1 := by
  induction k with
  | zero => intro ps bs _; simp
  | succ k ih =>
    intro ps bs h
    cases ps with
    | nil => simp [embedPixels]
    | cons p ps =>
      have h33 : 3 + 3 * k = 3 * (k + 1) := by ring
      simp only [embedPixels, List.drop_succ_cons]
      rw [embedChannels_snd 3 p bs (h p (by simp)),
        ih ps (bs.drop 3) (fun q hq => h q (by simp [hq])), List.drop_drop, h33]

theorem embedPixels_extract : ∀ (ps : List (List Nat)) (bs : List Nat),
    (∀ p ∈ ps, 3 ≤ p.length) → (∀ b ∈ bs, b ≤ 1) →
    bs.length ≤ 3 * ps.length →
    extractBits (embedPixels ps bs).1 = bs ++ (extractBits ps).drop bs.length := by
  intro ps
  induction ps with
  | nil =>
    intro bs _ _ hlen
    simp only [List.length_nil, Nat.mul_zero, Nat.le_zero] at hlen
    rw [List.eq_nil_of_length_eq_zero hlen]
    simp [embedPixels, extractBits]
  | cons p ps ih =>
    intro bs hwf hb hlen
    have hp : 3 ≤ p.length := hwf p (by simp)
    have hlsb : (p.take 3).length = 3 := by
      rw [List.length_take]; omega
    simp only [embedPixels]
    rw [embedChannels_snd 3 p bs hp, extractBits_cons,
      embedChannels_extract p bs hp hb,
      ih (bs.drop 3) (fun q hq => hwf q (by simp [hq]))
        (fun b hbb => hb b (List.mem_of_mem_drop hbb))
        (by rw [List.length_drop]; rw [List.length_cons] at hlen; omega),
      extractBits_cons, List.drop_append_eq_append_drop, List.length_map, hlsb,
      List.length_drop]
    by_cases hc : bs.length ≤ 3
    · rw [List.take_of_length_le hc, List.drop_eq_nil_of_le hc]
      have h0 : bs.length - 3 = 0 := by omega
      rw [h0, List.drop_zero]
      simp
    · have h3 : ((p.take 3).map (fun c => c % 2)).drop bs.length = [] := by
        apply List.drop_eq_nil_of_le
        rw [List.length_map, hlsb]; omega
      rw [h3, List.append_nil, ← List.append_assoc, List.take_append_drop,
        List.nil_append]

theorem embedPixels_getD (ps : List (List Nat)) (bs : List Nat)
    (hwf : ∀ p ∈ ps, 3 ≤ p.length) :
    ∀ i n, i < ps.length →
    ((embedPixels ps bs).1.getD i []).getD n 0 =
      if n < 3 ∧ 3 * i + n < bs.length then
        setLSB ((ps.getD i []).getD n 0) (bs.getD (3 * i + n) 0)
      else (ps.getD i []).getD n 0 := by
  induction ps generalizing bs with
  | nil => intro i n hi; simp at hi
  | cons p ps ih =>
    intro i n hi
    have hp : 3 ≤ p.length := hwf p (by simp)
    cases i with
    | zero =>
      simp only [embedPixels, List.getD_cons_zero, Nat.mul_zero, Nat.zero_add]
      by_cases hn : n < p.length
      · rw [embedChannels_getD 3 p bs n hn]
      · rw [List.getD_eq_default _ _ (by rw [embedChannels_fst_length]; omega),
          List.getD_eq_default _ _ (by omega), if_neg (by omega)]
    | succ i =>
      simp only [embedPixels, List.getD_cons_succ]
      rw [embedChannels_snd 3 p bs hp,
        ih (bs.drop 3) (fun q hq => hwf q (by simp [hq])) i n
          (by simpa using hi)]
      have hdrop : ∀ m, (bs.drop 3).getD m 0 = bs.getD (3 + m) 0 := by
        intro m
        by_cases hm : 3 + m < bs.length
        · rw [List.getD_eq_getElem _ _ (by rw [List.length_drop]; omega),
            List.getD_eq_getElem _ _ hm]
          simp [List.getElem_drop]
        · rw [List.getD_eq_default _ _ (by rw [List.length_drop]; omega),
            List.getD_eq_default _ _ (by omega)]
      rw [List.length_drop]
      by_cases h1 : n < 3 ∧ 3 * i + n < bs.length - 3
      · rw [if_pos h1, if_pos (by omega), hdrop]
        congr 2
        omega
      · rw [if_neg h1, if_neg (by omega)]

/-! ### Helper lemmas: the decoder -/

theorem bytesOfBits_append8 (l rest : List Nat) (h : l.length = 8) :
    bytesOfBits (l ++ rest) = byteVal l :: bytesOfBits rest := by
  obtain ⟨b0, b1, b2, b3, b4, b5, b6, b7, rfl⟩ :
      ∃ b0 b1 b2 b3 b4 b5 b6 b7, l = [b0, b1, b2, b3, b4, b5, b6, b7] := by
    rcases l with _|⟨b0,_|⟨b1,_|⟨b2,_|⟨b3,_|⟨b4,_|⟨b5,_|⟨b6,_|⟨b7,_|⟨b8,l⟩⟩⟩⟩⟩⟩⟩⟩⟩ <;>
      simp only [List.length_cons, List.length_nil] at h <;> try omega
    exact ⟨b0, b1, b2, b3, b4, b5, b6, b7, rfl⟩
  simp [bytesOfBits]

theorem bytesOfBits_bitStream (s : List Nat) (h : ∀ c ∈ s, c < 256) (rest : List Nat) :
    bytesOfBits (bitStream s ++ rest) = s ++ bytesOfBits rest := by
  induction s with
  | nil => simp [bitStream]
  | cons c s ih =>
    rw [bitStream_cons, List.append_assoc,
      bytesOfBits_append8 _ _ (length_charToBits c (h c (by simp))),
      byteVal_charToBits, ih (fun x hx => h x (by simp [hx])), List.cons_append]

theorem bytesOfBits_short : ∀ (bits : List Nat), bits.length < 8 → bytesOfBits bits = []
  | [], _ => rfl
  | [_], _ => rfl
  | [_, _], _ => rfl
  | [_, _, _], _ => rfl
  | [_, _, _, _], _ => rfl
  | [_, _, _, _, _], _ => rfl
  | [_, _, _, _, _, _], _ => rfl
  | [_, _, _, _, _, _, _], _ => rfl
  | _::_::_::_::_::_::_::_::_, h => by
    simp only [List.length_cons] at h; omega

theorem takeUntilZero_append_zero (l r : List Nat) :
    takeUntilZero (l ++ 0 :: r) = takeUntilZero (l ++ [0]) := by
  induction l with
  | nil => simp [takeUntilZero]
  | cons c l ih =>
    simp only [List.cons_append, takeUntilZero, List.append_eq]
    rw [ih]

theorem takeUntilZero_append_of_ne (l r : List Nat) (h : ∀ c ∈ l, c ≠ 0) :
    takeUntilZero (l ++ 0 :: r) = l := by
  induction l with
  | nil => simp [takeUntilZero]
  | cons c l ih =>
    simp only [List.cons_append, takeUntilZero, List.append_eq]
    rw [if_neg (h c (by simp)), ih (fun x hx => h x (by simp [hx]))]

theorem takeUntilZero_eq_takeWhile (l : List Nat) :
    takeUntilZero l = l.takeWhile (fun c => c != 0) := by
  induction l with
  | nil => rfl
  | cons c l ih =>
    by_cases hc : c = 0
    · subst hc; simp [takeUntilZero]
    · simp [takeUntilZero, hc, ih]

theorem bytesOfBits_eq_rangeMap : ∀ (bits : List Nat),
    bytesOfBits bits =
      (List.range (bits.length / 8)).map (fun i => byteVal ((bits.drop (8 * i)).take 8))
  | [] => by rw [bytesOfBits_short _ (by simp)]; simp
  | [_] => by rw [bytesOfBits_short _ (by simp)]; simp
  | [_, _] => by rw [bytesOfBits_short _ (by simp)]; simp
  | [_, _, _] => by rw [bytesOfBits_short _ (by simp)]; simp
  | [_, _, _, _] => by rw [bytesOfBits_short _ (by simp)]; simp
  | [_, _, _, _, _] => by rw [bytesOfBits_short _ (by simp)]; simp
  | [_, _, _, _, _, _] => by rw [bytesOfBits_short _ (by simp)]; simp
  | [_, _, _, _, _, _, _] => by rw [bytesOfBits_short _ (by simp)]; simp
  | b0 :: b1 :: b2 :: b3 :: b4 :: b5 :: b6 :: b7 :: rest => by
    have ih := bytesOfBits_eq_rangeMap rest
    have hlen : (b0 :: b1 :: b2 :: b3 :: b4 :: b5 :: b6 :: b7 :: rest).length =
        rest.length + 8 := by
      simp only [List.length_cons]
    have hdiv : (rest.length + 8) / 8 = rest.length / 8 + 1 := by omega
    simp only [bytesOfBits, hlen, hdiv, List.range_succ_eq_map, List.map_cons,
      List.map_map, Nat.mul_zero, List.drop_zero]
    refine List.cons_eq_cons.mpr ⟨rfl, ?_⟩
    rw [ih]
    refine List.map_congr_left ?_
    intro i hi
    have h8 : 8 * (i + 1) = 8 + 8 * i := by ring
    have hd : (b0 :: b1 :: b2 :: b3 :: b4 :: b5 :: b6 :: b7 :: rest).drop (8 + 8 * i) =
        rest.drop (8 * i) := by
      rw [← List.drop_drop]
      rfl
    simp only [Function.comp_apply, Nat.succ_eq_add_one, h8, hd]

/-! ### Helper lemmas: encoder success/failure and round trips -/

theorem encode_lsb_eq_none_iff (g : PixelGrid) (m : List Nat)
    (hch : ∀ p ∈ g.pixels, 3 ≤ p.length) :
    encode_lsb g m = none ↔ 3 * g.pixels.length < (bitStream (frameOf m)).length := by
  simp only [encode_lsb]
  rw [embedPixels_snd g.pixels _ hch]
  by_cases h : (bitStream (frameOf m)).drop (3 * g.pixels.length) = []
  · rw [if_pos h]
    rw [List.drop_eq_nil_iff] at h
    constructor
    · intro hx; simp at hx
    · intro hlt; omega
  · rw [if_neg h]
    rw [List.drop_eq_nil_iff] at h
    constructor
    · intro _; omega
    · intro _; rfl

theorem encode_lsb_isSome_iff (g : PixelGrid) (m : List Nat)
    (hch : ∀ p ∈ g.pixels, 3 ≤ p.length) :
    (encode_lsb g m).isSome = true ↔
      (bitStream (frameOf m)).length ≤ 3 * g.pixels.length := by
  rw [← Option.ne_none_iff_isSome, ne_eq, encode_lsb_eq_none_iff g m hch]
  omega

theorem encode_lsb_some (g : PixelGrid) (m : List Nat)
    (hch : ∀ p ∈ g.pixels, 3 ≤ p.length)
    (hfit : (bitStream (frameOf m)).length ≤ 3 * g.pixels.length) :
    encode_lsb g m =
      some ⟨g.width, g.height, (embedPixels g.pixels (bitStream (frameOf m))).1⟩ := by
  simp only [encode_lsb]
  rw [embedPixels_snd g.pixels _ hch, if_pos (List.drop_eq_nil_of_le hfit)]

theorem mem_frameOf_lt (m : List Nat) (hm : ∀ c ∈ m, c < 256) :
    ∀ c ∈ frameOf m, c < 256 := by
  intro c hc
  simp only [frameOf, PREFIX_MARKER, List.append_assoc, List.mem_append,
    List.mem_cons, List.not_mem_nil, or_false] at hc
  rcases hc with (rfl | rfl | rfl | rfl) | hc | rfl
  · omega
  · omega
  · omega
  · omega
  · exact hm c hc
  · omega

theorem decode_encode_lsb (g : PixelGrid) (m : List Nat)
    (hch : ∀ p ∈ g.pixels, 3 ≤ p.length)
    (hm : ∀ c ∈ m, c < 256)
    (hfit : (bitStream (frameOf m)).length ≤ 3 * g.pixels.length) :
    ∃ g', encode_lsb g m = some g' ∧ g'.width = g.width ∧ g'.height = g.height ∧
      g'.pixels.length = g.pixels.length ∧
      decode_lsb g' = takeUntilZero ((PREFIX_MARKER ++ m) ++ [0]) := by
  refine ⟨_, encode_lsb_some g m hch hfit, rfl, rfl, embedPixels_fst_length _ _, ?_⟩
  show takeUntilZero (bytesOfBits (extractBits
    (embedPixels g.pixels (bitStream (frameOf m))).1)) = _
  rw [embedPixels_extract g.pixels _ hch (fun b hb => mem_bitStream _ b hb) hfit,
    bytesOfBits_bitStream (frameOf m) (mem_frameOf_lt m hm) _]
  have hsplit : frameOf m ++ bytesOfBits
      ((extractBits g.pixels).drop (bitStream (frameOf m)).length) =
      (PREFIX_MARKER ++ m) ++ (0 :: bytesOfBits
        ((extractBits g.pixels).drop (bitStream (frameOf m)).length)) := by
    simp [frameOf]
  rw [hsplit, takeUntilZero_append_zero]

/-! ### Helper lemmas: capacity arithmetic and encoder pointwise form -/

theorem calc_eq (w h : Nat) :
    calc_max_message_length w h = ((w * h * 3 / 8 : Nat) : Int) - 4 - 1 := rfl

theorem frameOf_length (m : List Nat) : (frameOf m).length = m.length + 5 := by
  simp only [frameOf, PREFIX_MARKER, List.append_assoc, List.length_append,
    List.length_cons, List.length_nil]
  omega

theorem cap_le_fit (a len : Nat)
    (hcap : (len : Int) ≤ ((a * 3 / 8 : Nat) : Int) - 4 - 1) :
    8 * (len + 5) ≤ 3 * a := by omega

theorem cap_succ_exceed (a len : Nat)
    (hcap : (len : Int) = ((a * 3 / 8 : Nat) : Int) - 4 - 1 + 1) :
    3 * a < 8 * (len + 5) := by omega

theorem bitStream_frame_length (m : List Nat) (hm : ∀ c ∈ m, c < 256) :
    (bitStream (frameOf m)).length = 8 * (m.length + 5) := by
  rw [bitStream_length_eq _ (mem_frameOf_lt m hm), frameOf_length]

theorem getD_le_one_of_all (l : List Nat) (h : ∀ b ∈ l, b ≤ 1) (idx : Nat) :
    l.getD idx 0 ≤ 1 := by
  by_cases hi : idx < l.length
  · rw [List.getD_eq_getElem _ _ hi]
    exact h _ (List.getElem_mem hi)
  · rw [List.getD_eq_default _ _ (by omega)]
    omega

theorem encode_result (g : PixelGrid) (m : List Nat) (g' : PixelGrid)
    (hch : ∀ p ∈ g.pixels, 3 ≤ p.length)
    (henc : encode_lsb g m = some g') :
    g' = ⟨g.width, g.height, (embedPixels g.pixels (bitStream (frameOf m))).1⟩ ∧
    (bitStream (frameOf m)).length ≤ 3 * g.pixels.length := by
  have hfit : (bitStream (frameOf m)).length ≤ 3 * g.pixels.length := by
    rw [← encode_lsb_isSome_iff g m hch, henc]
    rfl
  have h2 := encode_lsb_some g m hch hfit
  rw [henc] at h2
  exact ⟨Option.some.inj h2, hfit⟩

/-- Pointwise description of a successful encode: channel `n` of pixel `i`
of the result is the original channel with its LSB overwritten by bit
`3*i + n` of the frame bitstream when `n` is one of the three colour
channels and the cursor reaches that position, and is the untouched
original channel otherwise. -/
theorem encode_getD (g : PixelGrid) (m : List Nat) (g' : PixelGrid)
    (hch : ∀ p ∈ g.pixels, 3 ≤ p.length)
    (henc : encode_lsb g m = some g') (i n : Nat) :
    (g'.pixels.getD i []).getD n 0 =
      if n < 3 ∧ 3 * i + n < (bitStream (frameOf m)).length then
        setLSB ((g.pixels.getD i []).getD n 0)
          ((bitStream (frameOf m)).getD (3 * i + n) 0)
      else (g.pixels.getD i []).getD n 0 := by
  obtain ⟨rfl, hfit⟩ := encode_result g m g' hch henc
  by_cases hi : i < g.pixels.length
  · exact embedPixels_getD g.pixels _ hch i n hi
  · have h1 : ((embedPixels g.pixels (bitStream (frameOf m))).1).getD i [] = [] :=
      List.getD_eq_default _ _ (by rw [embedPixels_fst_length]; omega)
    have h2 : g.pixels.getD i [] = [] := List.getD_eq_default _ _ (by omega)
    show ((embedPixels g.pixels (bitStream (frameOf m))).1.getD i []).getD n 0 = _
    rw [h1, h2, if_neg (by omega)]

theorem extractBits_take3 (ps : List (List Nat)) :
    extractBits ps =
      ((ps.map (fun p => p.take 3)).map (fun q => q.map (fun c => c % 2))).flatten := by
  rw [List.map_map]
  rfl

/-! ### Claim theorems -/

/-- C1, counterexample to the claim as stated: on a 10-by-10 grid
(capacity 32 ≥ 1) the one-character message consisting of the NUL
character round-trips to the bare marker, not to marker ++ message:
the decoder stops at the first NUL, so the message's own NUL erases
everything from it onward. -/
theorem C1_claim_counterexample :
    WFGrid zeroGrid10 ∧
    (1 : Int) ≤ calc_max_message_length 10 10 ∧
    (encode_lsb zeroGrid10 [0]).map decode_lsb = some PREFIX_MARKER ∧
    PREFIX_MARKER ≠ PREFIX_MARKER ++ [0] ∧
    (encode_lsb zeroGrid10 [257]).map decode_lsb =
      some (PREFIX_MARKER ++ [128, 128]) ∧
    PREFIX_MARKER ++ [128, 128] ≠ PREFIX_MARKER ++ [257] :=
  ⟨by decide, by decide, by decide, by decide, by decide, by decide⟩

/-- C1 (amended): round-trip holds for every well-formed grid and every
message whose characters are non-NUL byte-range code points (1..255):
if `capacity(width,height) ≥ length(message)` then encoding succeeds and
decoding the result yields exactly `PREFIX_MARKER ++ message`. -/
theorem C1_roundtrip (g : PixelGrid) (m : List Nat)
    (hwf : WFGrid g)
    (hm : ∀ c ∈ m, 1 ≤ c ∧ c ≤ 255)
    (hcap : (m.length : Int) ≤ calc_max_message_length g.width g.height) :
    ∃ g', encode_lsb g m = some g' ∧ decode_lsb g' = PREFIX_MARKER ++ m := by
  obtain ⟨hlen, hch⟩ := hwf
  have hm' : ∀ c ∈ m, c < 256 := by
    intro c hc
    have := hm c hc
    omega
  have hfit : (bitStream (frameOf m)).length ≤ 3 * g.pixels.length := by
    rw [bitStream_frame_length m hm', hlen]
    rw [calc_eq] at hcap
    exact cap_le_fit (g.width * g.height) m.length hcap
  obtain ⟨g', henc, _, _, _, hdec⟩ := decode_encode_lsb g m hch hm' hfit
  refine ⟨g', henc, ?_⟩
  rw [hdec]
  refine takeUntilZero_append_of_ne _ [] ?_
  intro c hc
  rcases List.mem_append.1 hc with hc | hc
  · simp only [PREFIX_MARKER, List.mem_cons, List.not_mem_nil, or_false] at hc
    rcases hc with rfl | rfl | rfl | rfl <;> omega
  · have := hm c hc
    omega

/-- Witness for C1_roundtrip at a concrete input: a 4-by-4 black grid
and the one-character message "h". -/
theorem C1_roundtrip_witness :
    ∃ g', encode_lsb zeroGrid44 [104] = some g' ∧
      decode_lsb g' = PREFIX_MARKER ++ [104] :=
  C1_roundtrip zeroGrid44 [104] (by decide) (by decide) (by decide)

/-- C2, counterexample to the claim as stated: on an 8-by-3 grid the
capacity is 4, yet the 4-character message [chr 256, a, a, a] fails to
encode, because `format(ord(chr 256), '08b')` expands to 9 bits and the
73-bit frame no longer fits in the 72 embeddable bits. -/
theorem C2_claim_counterexample :
    WFGrid zeroGrid83 ∧
    ((4 : Int) = calc_max_message_length 8 3) ∧
    encode_lsb zeroGrid83 [256, 97, 97, 97] = none :=
  ⟨by decide, by decide, by decide⟩

/-- C2 (amended): for every well-formed grid, a message of byte-range
characters whose length is exactly `capacity(width,height)` encodes
successfully, and a message of length `capacity(width,height) + 1`
always raises CapacityExceeded (this half needs no byte-range
hypothesis, since every character expands to at least 8 bits). -/
theorem C2_exact_fit (g : PixelGrid) (m : List Nat) (hwf : WFGrid g) :
    ((∀ c ∈ m, c < 256) →
      (m.length : Int) = calc_max_message_length g.width g.height →
      (encode_lsb g m).isSome = true) ∧
    ((m.length : Int) = calc_max_message_length g.width g.height + 1 →
      encode_lsb g m = none) := by
  obtain ⟨hlen, hch⟩ := hwf
  constructor
  · intro hm hcap
    rw [encode_lsb_isSome_iff g m hch, bitStream_frame_length m hm, hlen]
    rw [calc_eq] at hcap
    exact cap_le_fit (g.width * g.height) m.length (le_of_eq hcap)
  · intro hcap
    rw [encode_lsb_eq_none_iff g m hch]
    have h1 := bitStream_length_ge (frameOf m)
    have h2 := frameOf_length m
    rw [calc_eq] at hcap
    have h3 := cap_succ_exceed (g.width * g.height) m.length hcap
    rw [hlen]
    omega

/-- Witness for C2_exact_fit on a 10-by-10 grid: a 32-character message
(exact capacity) encodes, a 33-character message is rejected. -/
theorem C2_exact_fit_witness :
    (encode_lsb zeroGrid10 (List.replicate 32 97)).isSome = true ∧
    encode_lsb zeroGrid10 (List.replicate 33 97) = none :=
  ⟨(C2_exact_fit zeroGrid10 (List.replicate 32 97) (by decide)).1 (by decide) (by decide),
   (C2_exact_fit zeroGrid10 (List.replicate 33 97) (by decide)).2 (by decide)⟩

/-- C3, counterexample to the claim as stated: the claim's "if and only
if" uses the bitstream length 8*(len(PREFIX)+len(message)+1); on an
8-by-3 grid with message [chr 256, a, a, a] that formula gives 72 bits,
which does NOT exceed the 72-bit budget, yet the encoder raises, because
the actual bitstream is 73 bits long. -/
theorem C3_claim_counterexample :
    WFGrid zeroGrid83 ∧
    encode_lsb zeroGrid83 [256, 97, 97, 97] = none ∧
    ¬ (3 * (8 * 3) < 8 * (PREFIX_MARKER.length + 4 + 1)) :=
  ⟨by decide, by decide, by decide⟩

/-- C3 (amended): for every well-formed grid, `encode` raises
CapacityExceeded iff the ACTUAL framed bitstream is longer than the
`width*height*3` embeddable bits; for messages of byte-range characters
this condition coincides with the claim's
`8*(len(PREFIX)+len(message)+1) > width*height*3`.  Failure produces no
grid (`none`), and the input grid is untouched by construction (the
embedding is pure; the source mutates only a fresh `image.copy()`). -/
theorem C3_capacity_error (g : PixelGrid) (m : List Nat) (hwf : WFGrid g) :
    (encode_lsb g m = none ↔
      3 * (g.width * g.height) < (bitStream (frameOf m)).length) ∧
    ((∀ c ∈ m, c < 256) →
      (encode_lsb g m = none ↔
        3 * (g.width * g.height) < 8 * (PREFIX_MARKER.length + m.length + 1))) := by
  obtain ⟨hlen, hch⟩ := hwf
  constructor
  · rw [encode_lsb_eq_none_iff g m hch, hlen]
  · intro hm
    rw [encode_lsb_eq_none_iff g m hch, hlen, bitStream_frame_length m hm]
    simp only [PREFIX_MARKER, List.length_cons, List.length_nil]
    constructor
    · intro h
      omega
    · intro h
      omega

/-- Witness for C3_capacity_error at a concrete input: a 4-by-4 grid and
the message "h" (both iff directions instantiated). -/
theorem C3_capacity_error_witness :
    (encode_lsb zeroGrid44 [104] = none ↔
      3 * (zeroGrid44.width * zeroGrid44.height) <
        (bitStream (frameOf [104])).length) ∧
    (encode_lsb zeroGrid44 [104] = none ↔
      3 * (zeroGrid44.width * zeroGrid44.height) <
        8 * (PREFIX_MARKER.length + [104].length + 1)) :=
  ⟨(C3_capacity_error zeroGrid44 [104] (by decide)).1,
   (C3_capacity_error zeroGrid44 [104] (by decide)).2 (by decide)⟩

/-- C4: the capacity is exactly `floor(width*height*3/8) - 5` (the 5
being `len("vasu") + 1`), it is non-decreasing in the product
`width*height`, and the function is total by construction (it returns an
integer, possibly negative, for all inputs — no failure mode). -/
theorem C4_capacity (w h : Nat) :
    calc_max_message_length w h = ((w * h * 3 / 8 : Nat) : Int) - 5 ∧
    (∀ w2 h2 : Nat, w * h ≤ w2 * h2 →
      calc_max_message_length w h ≤ calc_max_message_length w2 h2) := by
  constructor
  · rw [calc_eq]
    ring
  · intro w2 h2 hle
    rw [calc_eq, calc_eq]
    have h1 : w * h * 3 / 8 ≤ w2 * h2 * 3 / 8 :=
      Nat.div_le_div_right (Nat.mul_le_mul_right 3 hle)
    omega

/-- Witness for C4_capacity: formula at 10×10 and monotonicity from a
2×3 image to a 10×10 image. -/
theorem C4_capacity_witness :
    calc_max_message_length 10 10 = ((10 * 10 * 3 / 8 : Nat) : Int) - 5 ∧
    calc_max_message_length 2 3 ≤ calc_max_message_length 10 10 :=
  ⟨(C4_capacity 10 10).1, (C4_capacity 2 3).2 10 10 (by decide)⟩

/-- C5: on a successful encode the result has the input's dimensions and
pixel count; every pixel from index `ceil(bitstream_length/3)` on is
identical to the input; every channel at a pixel-channel position beyond
the bitstream cursor (flat position `3*i + n` for colour channel `n` of
pixel `i`, or any channel past the third) is bit-identical to the input;
and even on the touched channels only the least significant bit can
change (all higher bits, i.e. the value divided by 2, are preserved). -/
theorem C5_no_mutation (g : PixelGrid) (m : List Nat) (g' : PixelGrid)
    (hwf : WFGrid g) (henc : encode_lsb g m = some g') :
    g'.width = g.width ∧ g'.height = g.height ∧
    g'.pixels.length = g.pixels.length ∧
    g'.pixels.drop (((bitStream (frameOf m)).length + 2) / 3) =
      g.pixels.drop (((bitStream (frameOf m)).length + 2) / 3) ∧
    (∀ i n : Nat, 3 ≤ n ∨ (bitStream (frameOf m)).length ≤ 3 * i + n →
      (g'.pixels.getD i []).getD n 0 = (g.pixels.getD i []).getD n 0) ∧
    (∀ i n : Nat,
      (g'.pixels.getD i []).getD n 0 / 2 = (g.pixels.getD i []).getD n 0 / 2) := by
  obtain ⟨hlen, hch⟩ := hwf
  have hgetD := encode_getD g m g' hch henc
  obtain ⟨hg', hfit⟩ := encode_result g m g' hch henc
  refine ⟨by rw [hg'], by rw [hg'],
    by rw [hg']; exact embedPixels_fst_length _ _, ?_, ?_, ?_⟩
  · rw [hg']
    show (embedPixels g.pixels (bitStream (frameOf m))).1.drop _ = _
    rw [embedPixels_drop (((bitStream (frameOf m)).length + 2) / 3) g.pixels
      (bitStream (frameOf m)) hch]
    have hnil : (bitStream (frameOf m)).drop
        (3 * (((bitStream (frameOf m)).length + 2) / 3)) = [] :=
      List.drop_eq_nil_of_le (by omega)
    rw [hnil, embedPixels_nilBits]
  · intro i n hcond
    rw [hgetD i n, if_neg (by omega)]
  · intro i n
    rw [hgetD i n]
    by_cases hc : n < 3 ∧ 3 * i + n < (bitStream (frameOf m)).length
    · rw [if_pos hc,
        setLSB_div _ _ (getD_le_one_of_all _ (fun b hb => mem_bitStream _ b hb) _)]
    · rw [if_neg hc]

/-- Witness for C5_no_mutation: encoding the empty message into the
4-by-4 black grid. -/
theorem C5_no_mutation_witness :
    encResult44.width = zeroGrid44.width ∧
    encResult44.height = zeroGrid44.height ∧
    encResult44.pixels.length = zeroGrid44.pixels.length ∧
    encResult44.pixels.drop (((bitStream (frameOf [])).length + 2) / 3) =
      zeroGrid44.pixels.drop (((bitStream (frameOf [])).length + 2) / 3) ∧
    (∀ i n : Nat, 3 ≤ n ∨ (bitStream (frameOf [])).length ≤ 3 * i + n →
      (encResult44.pixels.getD i []).getD n 0 =
        (zeroGrid44.pixels.getD i []).getD n 0) ∧
    (∀ i n : Nat, (encResult44.pixels.getD i []).getD n 0 / 2 =
      (zeroGrid44.pixels.getD i []).getD n 0 / 2) :=
  C5_no_mutation zeroGrid44 [] encResult44 (by decide) (by decide)

/-- C6: the decoder is total by construction (`decode_lsb` is a Lean
function on all grids), and it equals the specification's algorithm:
collect every pixel's first three channel LSBs in row-major order, take
the characters of the full 8-bit MSB-first groups (discarding a trailing
partial group), and keep characters up to but excluding the first
character with code 0, returning everything when no sentinel occurs. -/
theorem C6_decoder_total (g : PixelGrid) : decode_lsb g = decodeSpec g := by
  simp only [decode_lsb, decodeSpec]
  rw [bytesOfBits_eq_rangeMap, takeUntilZero_eq_takeWhile]

/-- C7: on any well-formed 10-by-10 grid, capacity is 32, the message
"hi" ([104, 105]) encodes and decodes back to "vasuhi"
([118, 97, 115, 117, 104, 105]), and every 33-character message is
rejected with CapacityExceeded. -/
theorem C7_concrete_10x10 :
    calc_max_message_length 10 10 = 32 ∧
    ∀ g : PixelGrid, g.width = 10 → g.height = 10 → WFGrid g →
      (∃ g', encode_lsb g [104, 105] = some g' ∧
        decode_lsb g' = [118, 97, 115, 117, 104, 105]) ∧
      (∀ m : List Nat, m.length = 33 → encode_lsb g m = none) := by
  refine ⟨by decide, ?_⟩
  intro g hw hh hwf
  obtain ⟨hlen, hch⟩ := hwf
  rw [hw, hh] at hlen
  constructor
  · have hm : ∀ c ∈ [104, 105], c < 256 := by decide
    have hfit : (bitStream (frameOf [104, 105])).length ≤ 3 * g.pixels.length := by
      rw [bitStream_frame_length _ hm, hlen]
      decide
    obtain ⟨g', henc, _, _, _, hdec⟩ := decode_encode_lsb g [104, 105] hch hm hfit
    refine ⟨g', henc, ?_⟩
    rw [hdec]
    decide
  · intro m hm33
    rw [encode_lsb_eq_none_iff g m hch, hlen]
    have h1 := bitStream_length_ge (frameOf m)
    have h2 := frameOf_length m
    omega

/-- Witness for C7_concrete_10x10 at the concrete black 10-by-10 grid
and the 33-character message "aaa...a". -/
theorem C7_concrete_10x10_witness :
    (∃ g', encode_lsb zeroGrid10 [104, 105] = some g' ∧
      decode_lsb g' = [118, 97, 115, 117, 104, 105]) ∧
    encode_lsb zeroGrid10 (List.replicate 33 97) = none :=
  ⟨(C7_concrete_10x10.2 zeroGrid10 rfl rfl (by decide)).1,
   (C7_concrete_10x10.2 zeroGrid10 rfl rfl (by decide)).2
     (List.replicate 33 97) (by decide)⟩

/-- C8, counterexample to the claim as stated: the frame containing the
character with code point 256 expands to 49 bits, not 8 bits per
character (the frame has 6 characters, 8*6 = 48): Python's
`format(n, '08b')` zero-pads to a minimum of 8 digits but never
truncates, so code points above 255 produce more than 8 bits. -/
theorem C8_claim_counterexample :
    (bitStream (frameOf [256])).length = 49 ∧
    (frameOf [256]).length = 6 ∧
    (49 : Nat) ≠ 8 * 6 :=
  ⟨by decide, by decide, by decide⟩

/-- C8 (amended): for byte-range characters (code point < 256) the
expansion is exactly 8 bits per character, MSB-first (reading the 8 bits
back MSB-first recovers the code point), concatenated in frame order, so
the bitstream length is 8 times the number of frame characters.  For
code points above 255 the expansion is longer than 8 bits. -/
theorem C8_bitstream (s : List Nat) (hs : ∀ c ∈ s, c < 256) :
    (bitStream s).length = 8 * s.length ∧
    ∀ c ∈ s, (charToBits c).length = 8 ∧ byteVal (charToBits c) = c :=
  ⟨bitStream_length_eq s hs,
   fun c hc => ⟨length_charToBits c (hs c hc), byteVal_charToBits c⟩⟩

/-- Witness for C8_bitstream on the frame of the message "h". -/
theorem C8_bitstream_witness :
    (bitStream (frameOf [104])).length = 8 * (frameOf [104]).length ∧
    ∀ c ∈ frameOf [104], (charToBits c).length = 8 ∧ byteVal (charToBits c) = c :=
  C8_bitstream (frameOf [104]) (by decide)

/-- C9 (implicit): channels beyond the third (e.g. alpha) pass through
untouched on a successful encode, and the decoder's output depends only
on the first three channels of every pixel. -/
theorem C9_extra_channels :
    (∀ (g : PixelGrid) (m : List Nat) (g' : PixelGrid), WFGrid g →
      encode_lsb g m = some g' → ∀ i n : Nat, 3 ≤ n →
      (g'.pixels.getD i []).getD n 0 = (g.pixels.getD i []).getD n 0) ∧
    (∀ g1 g2 : PixelGrid,
      g1.pixels.map (fun p => p.take 3) = g2.pixels.map (fun p => p.take 3) →
      decode_lsb g1 = decode_lsb g2) := by
  constructor
  · intro g m g' hwf henc i n hn
    rw [encode_getD g m g' hwf.2 henc i n, if_neg (by omega)]
  · intro g1 g2 hmap
    unfold decode_lsb
    rw [extractBits_take3 g1.pixels, extractBits_take3 g2.pixels, hmap]

/-- Witness for C9_extra_channels: the alpha channel of the first pixel
of an RGBA grid survives encoding, and two RGBA grids differing only in
alpha decode identically. -/
theorem C9_extra_channels_witness :
    (rgbaEnc.pixels.getD 0 []).getD 3 0 = (rgbaGrid.pixels.getD 0 []).getD 3 0 ∧
    decode_lsb rgbaA = decode_lsb rgbaB :=
  ⟨C9_extra_channels.1 rgbaGrid [] rgbaEnc (by decide) (by decide) 0 3 (by decide),
   C9_extra_channels.2 rgbaA rgbaB (by decide)⟩

/-- C10, counterexample to the claim as stated: the message
[chr 256, chr 0] has its first NUL at position 1, fits a 10-by-10 grid,
and encodes successfully — but decoding yields marker ++ [128], not
marker ++ [256]: the 9-bit expansion of code point 256 shifts the byte
grouping, so even the part before the NUL is not recovered. -/
theorem C10_claim_counterexample :
    (2 : Int) ≤ calc_max_message_length 10 10 ∧
    (encode_lsb zeroGrid10 [256, 0]).map decode_lsb =
      some (PREFIX_MARKER ++ [128]) ∧
    PREFIX_MARKER ++ [128] ≠ PREFIX_MARKER ++ [256, 0].take 1 :=
  ⟨by decide, by decide, by decide⟩

/-- C10 (amended): for messages of byte-range characters (code point
< 256) whose first NUL sits at position `k`, encoding succeeds whenever
the capacity admits the full message (the NUL is not rejected), and
decoding the result yields `PREFIX_MARKER ++ message.take k`: everything
from the first NUL onward is silently lost. -/
theorem C10_nul_truncates (g : PixelGrid) (m : List Nat) (k : Nat)
    (hwf : WFGrid g) (hm : ∀ c ∈ m, c < 256)
    (hk : k < m.length) (hk0 : m.getD k 1 = 0)
    (hkfirst : ∀ c ∈ m.take k, c ≠ 0)
    (hcap : (m.length : Int) ≤ calc_max_message_length g.width g.height) :
    ∃ g', encode_lsb g m = some g' ∧
      decode_lsb g' = PREFIX_MARKER ++ m.take k := by
  obtain ⟨hlen, hch⟩ := hwf
  have hfit : (bitStream (frameOf m)).length ≤ 3 * g.pixels.length := by
    rw [bitStream_frame_length m hm, hlen]
    rw [calc_eq] at hcap
    exact cap_le_fit (g.width * g.height) m.length hcap
  obtain ⟨g', henc, _, _, _, hdec⟩ := decode_encode_lsb g m hch hm hfit
  refine ⟨g', henc, ?_⟩
  rw [hdec]
  have hdk : m.drop k = 0 :: m.drop (k + 1) := by
    rw [List.drop_eq_getElem_cons hk]
    rw [List.getD_eq_getElem _ 1 hk] at hk0
    rw [hk0]
  have hsplit : (PREFIX_MARKER ++ m) ++ [0] =
      (PREFIX_MARKER ++ m.take k) ++ (0 :: (m.drop (k + 1) ++ [0])) := by
    conv_lhs => rw [← List.take_append_drop k m]
    rw [hdk]
    simp
  rw [hsplit, takeUntilZero_append_of_ne]
  intro c hc
  rcases List.mem_append.1 hc with hc | hc
  · simp only [PREFIX_MARKER, List.mem_cons, List.not_mem_nil, or_false] at hc
    rcases hc with rfl | rfl | rfl | rfl <;> omega
  · exact hkfirst c hc

/-- Witness for C10_nul_truncates: the message "h", NUL, "i" on the
black 10-by-10 grid decodes to marker ++ "h". -/
theorem C10_nul_truncates_witness :
    ∃ g', encode_lsb zeroGrid10 [104, 0, 105] = some g' ∧
      decode_lsb g' = PREFIX_MARKER ++ [104, 0, 105].take 1 :=
  C10_nul_truncates zeroGrid10 [104, 0, 105] 1 (by decide) (by decide) (by decide)
    (by decide) (by decide) (by decide)

end StegCore
